import Mathlib

/-!
# Verification of the Google Maps bulk scraper core

Shallow embedding of `src/main.js` (two script variants separated in the file;
the second, detail-page variant carries the canonical dedup-first/annotate
pipeline adopted by the specification).  Pure string manipulation is embedded
directly; browser/network effects are parameters (the rendered feed, the fetch
outcome), exactly at the interface boundary the specification draws.
-/

namespace GmapsScraper

/-! ## Constants (src/main.js, CONSTANTS section) -/

def MAX_SCROLL_ATTEMPTS : Nat := 100

def NO_NEW_RESULTS_THRESHOLD : Nat := 5

/-! ## `generatePlaceKey` and its `normalize`

`normalize = (str) => str.toLowerCase().trim().replace(/\s+/g, ' ')`.
Strings are modelled as their character lists; `toLowerCase` is the ASCII
lowercase map (Lean core `Char.toLower`, which matches the JS behaviour on
the basic latin range), and the JS whitespace class is modelled on its ASCII
part, used consistently for both `trim` and `\s`. -/

/-- ASCII part of the JS whitespace class (`\s`, and `String.prototype.trim`). -/
def isJsWs (c : Char) : Bool :=
  c = ' ' || c = '\t' || c = '\n' || c = '\r' || c = '\x0b' || c = '\x0c'

/-- JS `replace(/\s+/g, ' ')`: every maximal whitespace run becomes one space. -/
def collapseWs : List Char → List Char
  | [] => []
  | [c] => if isJsWs c then [' '] else [c]
  | c1 :: c2 :: r =>
    if isJsWs c1 && isJsWs c2 then collapseWs (c2 :: r)
    else if isJsWs c1 then ' ' :: collapseWs (c2 :: r)
    else c1 :: collapseWs (c2 :: r)

/-- Remove trailing whitespace (right half of `String.prototype.trim`). -/
def dropTrailWs : List Char → List Char
  | [] => []
  | c :: r =>
    let r' := dropTrailWs r
    if r'.isEmpty && isJsWs c then [] else c :: r'

/-- JS `String.prototype.trim` on a character list. -/
def trimWs (l : List Char) : List Char := dropTrailWs (l.dropWhile isJsWs)

/-- List-level body of `normalize`: lowercase, trim, collapse whitespace runs. -/
def normalizeList (l : List Char) : List Char :=
  collapseWs (trimWs (l.map Char.toLower))

/-- The `normalize` arrow function inside `generatePlaceKey` (src/main.js line 27 / 476). -/
def normalize (s : String) : String := ⟨normalizeList s.data⟩

/-- Function `generatePlaceKey(businessName, address)` (src/main.js line 26 / 475). -/
def generatePlaceKey (businessName address : String) : String :=
  normalize businessName ++ "|" ++ normalize address

/-! ### Character-level lemmas -/

theorem toNat_ofNat_valid {n : Nat} (h : n.isValidChar) :
    (Char.ofNat n).toNat = n := by
  rw [Char.ofNat, dif_pos h]
  rfl

theorem toLower_toLower (c : Char) : c.toLower.toLower = c.toLower := by
  unfold Char.toLower
  by_cases h : c.toNat ≥ 65 ∧ c.toNat ≤ 90
  · rw [if_pos h]
    have hv : (c.toNat + 32).isValidChar := Or.inl (by omega)
    have ht : (Char.ofNat (c.toNat + 32)).toNat = c.toNat + 32 :=
      toNat_ofNat_valid hv
    rw [if_neg]
    rw [ht]
    omega
  · rw [if_neg h, if_neg h]

theorem toLower_of_isJsWs {c : Char} (h : isJsWs c = true) :
    c.toLower = c := by
  simp only [isJsWs, Bool.or_eq_true, decide_eq_true_eq] at h
  rcases h with ((((h | h) | h) | h) | h) | h <;> subst h <;> decide

/-! ### Membership lemmas -/

theorem mem_of_mem_dropWhileWs {c : Char} {p : Char → Bool} :
    ∀ {l : List Char}, c ∈ l.dropWhile p → c ∈ l
  | [], h => h
  | a :: r, h => by
    by_cases hp : p a = true
    · simp only [List.dropWhile_cons, hp, if_true] at h
      exact List.mem_cons_of_mem a (mem_of_mem_dropWhileWs h)
    · simp only [List.dropWhile_cons, hp, if_false] at h
      exact h

theorem mem_of_mem_dropTrailWs {c : Char} :
    ∀ {l : List Char}, c ∈ dropTrailWs l → c ∈ l
  | [], h => h
  | a :: r, h => by
    simp only [dropTrailWs] at h
    by_cases hc : (dropTrailWs r).isEmpty && isJsWs a
    · rw [if_pos hc] at h
      exact absurd h (List.not_mem_nil c)
    · rw [if_neg hc] at h
      rcases List.mem_cons.mp h with h | h
      · exact h ▸ List.mem_cons_self a r
      · exact List.mem_cons_of_mem a (mem_of_mem_dropTrailWs h)

theorem mem_collapseWs {c : Char} :
    ∀ {l : List Char}, c ∈ collapseWs l → c = ' ' ∨ c ∈ l := by
  intro l
  induction l with
  | nil => intro h; exact absurd h (List.not_mem_nil c)
  | cons c1 t ih =>
    cases t with
    | nil =>
      intro h
      simp only [collapseWs] at h
      by_cases hw : isJsWs c1 = true
      · rw [if_pos hw] at h
        left; simpa using h
      · rw [if_neg hw] at h
        right; simpa using h
    | cons c2 r =>
      intro h
      simp only [collapseWs] at h
      by_cases h12 : isJsWs c1 && isJsWs c2
      · rw [if_pos h12] at h
        rcases ih h with h' | h'
        · exact Or.inl h'
        · exact Or.inr (List.mem_cons_of_mem c1 h')
      · rw [if_neg h12] at h
        by_cases h1 : isJsWs c1 = true
        · rw [if_pos h1] at h
          rcases List.mem_cons.mp h with h' | h'
          · exact Or.inl h'
          · rcases ih h' with h'' | h''
            · exact Or.inl h''
            · exact Or.inr (List.mem_cons_of_mem c1 h'')
        · rw [if_neg h1] at h
          rcases List.mem_cons.mp h with h' | h'
          · exact Or.inr (h' ▸ List.mem_cons_self c1 (c2 :: r))
          · rcases ih h' with h'' | h''
            · exact Or.inl h''
            · exact Or.inr (List.mem_cons_of_mem c1 h'')

theorem map_id_of_mem {l : List Char} {f : Char → Char}
    (h : ∀ c ∈ l, f c = c) : l.map f = l := by
  induction l with
  | nil => rfl
  | cons a t ih =>
    simp only [List.map_cons]
    rw [h a (List.mem_cons_self a t), ih fun c hc => h c (List.mem_cons_of_mem a hc)]

/-! ### Structure of `collapseWs` output -/

/-- No two adjacent whitespace characters. -/
def noAdjWs : List Char → Bool
  | [] => true
  | [_] => true
  | c1 :: c2 :: r => !(isJsWs c1 && isJsWs c2) && noAdjWs (c2 :: r)

theorem collapseWs_cons_of_not_ws {c : Char} (h : isJsWs c = false) :
    ∀ r : List Char, collapseWs (c :: r) = c :: collapseWs r := by
  intro r
  cases r with
  | nil => simp [collapseWs, h]
  | cons c2 t => simp [collapseWs, h]

theorem collapseWs_ne_nil : ∀ {l : List Char}, l ≠ [] → collapseWs l ≠ [] := by
  intro l
  induction l with
  | nil => intro h; exact absurd rfl h
  | cons c1 t ih =>
    intro _
    cases t with
    | nil =>
      by_cases hw : isJsWs c1 = true <;> simp [collapseWs, hw]
    | cons c2 r =>
      simp only [collapseWs]
      by_cases h12 : isJsWs c1 && isJsWs c2
      · rw [if_pos h12]
        exact ih (by simp)
      · rw [if_neg h12]
        by_cases h1 : isJsWs c1 = true
        · rw [if_pos h1]; simp
        · rw [if_neg h1]; simp

theorem ws_mem_collapseWs_eq_space {c : Char} :
    ∀ {l : List Char}, c ∈ collapseWs l → isJsWs c = true → c = ' ' := by
  intro l
  induction l with
  | nil => intro h _; exact absurd h (List.not_mem_nil c)
  | cons c1 t ih =>
    cases t with
    | nil =>
      intro h hw
      simp only [collapseWs] at h
      by_cases h1 : isJsWs c1 = true
      · rw [if_pos h1] at h; simpa using h
      · rw [if_neg h1] at h
        have : c = c1 := by simpa using h
        rw [this] at hw
        exact absurd hw (by simp [h1])
    | cons c2 r =>
      intro h hw
      simp only [collapseWs] at h
      by_cases h12 : isJsWs c1 && isJsWs c2
      · rw [if_pos h12] at h
        exact ih h hw
      · rw [if_neg h12] at h
        by_cases h1 : isJsWs c1 = true
        · rw [if_pos h1] at h
          rcases List.mem_cons.mp h with h' | h'
          · exact h'
          · exact ih h' hw
        · rw [if_neg h1] at h
          rcases List.mem_cons.mp h with h' | h'
          · rw [h'] at hw
            exact absurd hw (by simp [h1])
          · exact ih h' hw

theorem noAdjWs_collapseWs : ∀ l : List Char, noAdjWs (collapseWs l) = true := by
  intro l
  induction l with
  | nil => rfl
  | cons c1 t ih =>
    cases t with
    | nil =>
      by_cases h1 : isJsWs c1 = true <;> simp [collapseWs, h1, noAdjWs]
    | cons c2 r =>
      simp only [collapseWs]
      by_cases h12 : isJsWs c1 && isJsWs c2
      · rw [if_pos h12]; exact ih
      · rw [if_neg h12]
        by_cases h1 : isJsWs c1 = true
        · rw [if_pos h1]
          have h2 : isJsWs c2 = false := by
            cases hh : isJsWs c2
            · rfl
            · exact absurd (by simp [h1, hh]) h12
          rw [collapseWs_cons_of_not_ws h2 r]
          simp only [noAdjWs, Bool.and_eq_true, Bool.not_eq_true']
          refine ⟨by simp [h2], ?_⟩
          rw [← collapseWs_cons_of_not_ws h2 r]
          exact ih
        · rw [if_neg h1]
          cases hc : collapseWs (c2 :: r) with
          | nil => simp [noAdjWs]
          | cons d u =>
            simp only [noAdjWs, Bool.and_eq_true, Bool.not_eq_true']
            refine ⟨by simp [h1], ?_⟩
            rw [← hc]
            exact ih

theorem collapseWs_of_noAdjWs :
    ∀ l : List Char, noAdjWs l = true →
      collapseWs l = l.map (fun c => if isJsWs c then ' ' else c) := by
  intro l
  induction l with
  | nil => intro _; rfl
  | cons c1 t ih =>
    cases t with
    | nil =>
      intro _
      by_cases h1 : isJsWs c1 = true <;> simp [collapseWs, h1]
    | cons c2 r =>
      intro hna
      simp only [noAdjWs, Bool.and_eq_true, Bool.not_eq_true'] at hna
      obtain ⟨h12, hrest⟩ := hna
      simp only [collapseWs]
      rw [if_neg (by simp [h12])]
      by_cases h1 : isJsWs c1 = true
      · rw [if_pos h1]
        rw [ih hrest]
        simp [h1]
      · rw [if_neg h1]
        rw [ih hrest]
        simp [h1]

theorem collapseWs_collapseWs (l : List Char) :
    collapseWs (collapseWs l) = collapseWs l := by
  rw [collapseWs_of_noAdjWs (collapseWs l) (noAdjWs_collapseWs l)]
  apply map_id_of_mem
  intro c hc
  by_cases hw : isJsWs c = true
  · rw [if_pos hw]
    exact (ws_mem_collapseWs_eq_space hc hw).symm
  · rw [if_neg hw]

/-! ### `dropTrailWs` stability -/

theorem dropTrailWs_cons (c : Char) (r : List Char) :
    dropTrailWs (c :: r) =
      if (dropTrailWs r).isEmpty && isJsWs c then [] else c :: dropTrailWs r := rfl

theorem dropTrailWs_idem : ∀ l : List Char, dropTrailWs (dropTrailWs l) = dropTrailWs l := by
  intro l
  induction l with
  | nil => rfl
  | cons a r ih =>
    simp only [dropTrailWs]
    by_cases hc : (dropTrailWs r).isEmpty && isJsWs a
    · rw [if_pos hc]
      rfl
    · rw [if_neg hc]
      simp only [dropTrailWs, ih]
      rw [if_neg hc]

theorem dropTrailWs_collapseWs :
    ∀ l : List Char, dropTrailWs l = l → dropTrailWs (collapseWs l) = collapseWs l := by
  intro l
  induction l with
  | nil => intro _; rfl
  | cons c1 t ih =>
    cases t with
    | nil =>
      intro h
      have h1 : isJsWs c1 = false := by
        by_contra hne
        have h1t : isJsWs c1 = true := by
          cases hh : isJsWs c1
          · exact absurd hh hne
          · rfl
        simp [dropTrailWs, h1t] at h
      simp [collapseWs, dropTrailWs, h1]
    | cons c2 r =>
      intro h
      have hr : dropTrailWs (c2 :: r) = c2 :: r := by
        rw [dropTrailWs_cons] at h
        by_cases hc : (dropTrailWs (c2 :: r)).isEmpty && isJsWs c1
        · rw [if_pos hc] at h
          exact absurd h (by simp)
        · rw [if_neg hc] at h
          exact (List.cons.injEq _ _ _ _ ▸ h).2
      have ihr := ih hr
      have hXne : collapseWs (c2 :: r) ≠ [] := collapseWs_ne_nil (by simp)
      simp only [collapseWs]
      by_cases h12 : isJsWs c1 && isJsWs c2
      · rw [if_pos h12]
        exact ihr
      · rw [if_neg h12]
        by_cases h1 : isJsWs c1 = true
        · rw [if_pos h1]
          rw [dropTrailWs_cons, ihr]
          rw [if_neg (by simp [List.isEmpty_iff, hXne])]
        · rw [if_neg h1]
          rw [dropTrailWs_cons, ihr]
          rw [if_neg (by simp [h1])]

theorem dropWhileWs_shape (l : List Char) :
    l.dropWhile isJsWs = [] ∨
      ∃ c r, l.dropWhile isJsWs = c :: r ∧ isJsWs c = false := by
  induction l with
  | nil => exact Or.inl rfl
  | cons a t ih =>
    by_cases ha : isJsWs a = true
    · simpa [List.dropWhile_cons, ha] using ih
    · right
      exact ⟨a, t, by simp [List.dropWhile_cons, ha], by simp [ha]⟩

theorem dropTrailWs_shape (c : Char) (r : List Char) :
    dropTrailWs (c :: r) = [] ∨ ∃ t, dropTrailWs (c :: r) = c :: t := by
  simp only [dropTrailWs]
  by_cases hc : (dropTrailWs r).isEmpty && isJsWs c
  · rw [if_pos hc]; exact Or.inl rfl
  · rw [if_neg hc]; exact Or.inr ⟨dropTrailWs r, rfl⟩

theorem trimWs_shape (l : List Char) :
    trimWs l = [] ∨ ∃ c r, trimWs l = c :: r ∧ isJsWs c = false := by
  unfold trimWs
  rcases dropWhileWs_shape l with h | ⟨c, r, h, hc⟩
  · rw [h]; exact Or.inl rfl
  · rw [h]
    rcases dropTrailWs_shape c r with h' | ⟨t, h'⟩
    · rw [h']; exact Or.inl rfl
    · rw [h']; exact Or.inr ⟨c, t, rfl, hc⟩

theorem dropTrailWs_trimWs (l : List Char) : dropTrailWs (trimWs l) = trimWs l :=
  dropTrailWs_idem _

/-! ### Idempotence of `normalize` (claim C9) -/

theorem map_toLower_normalizeList (l : List Char) :
    (normalizeList l).map Char.toLower = normalizeList l := by
  apply map_id_of_mem
  intro c hc
  unfold normalizeList at hc
  rcases mem_collapseWs hc with h | h
  · rw [h]; decide
  · have : c ∈ (l.map Char.toLower) :=
      mem_of_mem_dropWhileWs (mem_of_mem_dropTrailWs h)
    rcases List.mem_map.mp this with ⟨x, _, hx⟩
    rw [← hx]
    exact toLower_toLower x

theorem trimWs_normalizeList (l : List Char) :
    trimWs (normalizeList l) = normalizeList l := by
  unfold normalizeList
  rcases trimWs_shape (l.map Char.toLower) with h | ⟨c, r, h, hc⟩
  · rw [h]
    rfl
  · rw [h]
    have hu : dropTrailWs (c :: r) = c :: r := by
      rw [← h]
      exact dropTrailWs_trimWs (l.map Char.toLower)
    have hfront : (collapseWs (c :: r)).dropWhile isJsWs = collapseWs (c :: r) := by
      rw [collapseWs_cons_of_not_ws hc r]
      simp [List.dropWhile_cons, hc]
    unfold trimWs
    rw [hfront]
    exact dropTrailWs_collapseWs _ hu

theorem normalizeList_normalizeList (l : List Char) :
    normalizeList (normalizeList l) = normalizeList l := by
  conv_lhs => rw [normalizeList]
  rw [map_toLower_normalizeList, trimWs_normalizeList]
  conv_lhs => rw [normalizeList]
  exact collapseWs_collapseWs _

/-- C9: the `normalize` used to build DedupKeys (lowercase, trim, collapse
internal whitespace runs to a single space) is idempotent:
`normalize (normalize s) = normalize s` for every string `s`. -/
theorem normalize_idempotent (s : String) : normalize (normalize s) = normalize s := by
  show (⟨normalizeList (String.data ⟨normalizeList s.data⟩)⟩ : String) = ⟨normalizeList s.data⟩
  exact congrArg String.mk (normalizeList_normalizeList s.data)

/-! ## Input model and configuration (src/main.js 722-762, second variant) -/

structure Query where
  searchTerm : String
  location : String
  deriving DecidableEq

/-- Raw actor input; `none` models an absent (`undefined`) JS property. -/
structure RawInput where
  queries : List Query
  language : Option String := none
  skipClosedPlaces : Option Bool := none
  minRating : Option Rat := none
  requireWebsite : Option Bool := none
  extractEmailFromWebsiteFlag : Option Bool := none
  deriving DecidableEq

/-- Configuration after the destructuring defaults of src/main.js 731-738
(`language = 'en'`, `skipClosedPlaces = true`, `minRating = null`,
`requireWebsite = false`, `extractEmailFromWebsite: shouldExtractEmail = true`). -/
structure Config where
  language : String
  skipClosedPlaces : Bool
  minRating : Option Rat
  requireWebsite : Bool
  shouldExtractEmail : Bool
  deriving DecidableEq

def parseConfig (raw : RawInput) : Config :=
  { language := raw.language.getD "en"
    skipClosedPlaces := raw.skipClosedPlaces.getD true
    minRating := raw.minRating
    requireWebsite := raw.requireWebsite.getD false
    shouldExtractEmail := raw.extractEmailFromWebsiteFlag.getD true }

/-! ## Candidate and output records -/

/-- Candidate produced by `extractPlaceDetailsFromPage` (src/main.js 576-702);
`none` models a JS `null` field.  `business_name = some ""` is possible
(trimmed empty heading text) and is falsy in JS, handled at the use site. -/
structure Candidate where
  business_name : Option String := none
  category : Option String := none
  address : Option String := none
  phone : Option String := none
  website : Option String := none
  rating : Option Rat := none
  reviews_count : Option Nat := none
  email : Option String := none
  plus_code : Option String := none
  price_level : Option String := none
  isClosed : Bool := false
  deriving DecidableEq

/-- Record pushed to the unified Dataset (src/main.js 877-887). -/
structure OutRecord where
  business_name : String
  category : Option String
  address : Option String
  phone : Option String
  website : Option String
  rating : Option Rat
  reviews_count : Option Nat
  email : Option String
  plus_code : Option String
  price_level : Option String
  filter_status : String
  query_searchTerm : String
  query_location : String
  query_index : Nat
  google_maps_url : String
  deriving DecidableEq

/-- JS truthiness of a nullable string (`null`/`undefined`/`""` are falsy). -/
def optTruthy : Option String → Bool
  | none => false
  | some s => decide (s ≠ "")

/-! ## Filter pipeline (src/main.js 866-877) -/

/-- Condition `placeData.rating === null || placeData.rating < minRating`, guarded by
`minRating !== null` (src/main.js 873). -/
def ratingBelow (minRating rating : Option Rat) : Bool :=
  match minRating, rating with
  | some _, none => true
  | some m, some r => decide (r < m)
  | none, _ => false

/-- Filter annotation: fixed predicate order, first match wins, `extracted`
otherwise (src/main.js 866-877). -/
def filterStatusOf (cfg : Config) (isClosed : Bool) (website : Option String)
    (rating : Option Rat) : String :=
  if cfg.skipClosedPlaces && isClosed then "closed"
  else if cfg.requireWebsite && !optTruthy website then "no_website"
  else if ratingBelow cfg.minRating rating then "low_rating"
  else "extracted"

/-! ## Per-item pipeline (src/main.js 831-902, detail-page variant) -/

/-- Query provenance; `queryIndex` is the 0-based JS loop index, records are
stamped with `queryIndex + 1`. -/
structure QueryMeta where
  searchTerm : String
  location : String
  queryIndex : Nat
  deriving DecidableEq

/-- Run-wide mutable state: the Dedup Index (`seenPlaces`, a JS `Set` modelled
as a list queried via `contains`), the dataset counter, and the trace of
website URLs fetched for enrichment (makes "enrichment was performed"
observable in the model). -/
structure RunState where
  seen : List String
  totalExtracted : Nat
  fetchedUrls : List String
  deriving DecidableEq

/-- One feed item: the place URL paired with the result of
`extractPlaceDetailsFromPage` (`none` when navigation/extraction failed). -/
abbrev PlaceItem := String × Option Candidate

/-- DedupKey of a candidate passing the business-name guard (src/main.js
841-852): `none` when the candidate is skipped before deduplication, the key
`generatePlaceKey(business_name, address || '')` otherwise. -/
def candKey (c : Candidate) : Option String :=
  match c.business_name with
  | none => none
  | some n => if n = "" then none else some (generatePlaceKey n (c.address.getD ""))

def itemKey (it : PlaceItem) : Option String := it.2.bind candKey

/-- Condition `shouldExtractEmail && placeData.website && !placeData.email`
(src/main.js 862). -/
def wantsEnrichment (cfg : Config) (c : Candidate) : Bool :=
  cfg.shouldExtractEmail && optTruthy c.website && !optTruthy c.email

/-- Record built for an accepted candidate: enrichment result, filter
annotation, query metadata (src/main.js 861-885). -/
def emitRecord (cfg : Config) (fetch : String → Option String) (meta : QueryMeta)
    (url : String) (c : Candidate) : OutRecord :=
  { business_name := c.business_name.getD ""
    category := c.category
    address := c.address
    phone := c.phone
    website := c.website
    rating := c.rating
    reviews_count := c.reviews_count
    email :=
      if wantsEnrichment cfg c then
        match c.website with
        | some w => fetch w
        | none => c.email
      else c.email
    plus_code := c.plus_code
    price_level := c.price_level
    filter_status := filterStatusOf cfg c.isClosed c.website c.rating
    query_searchTerm := meta.searchTerm
    query_location := meta.location
    query_index := meta.queryIndex + 1
    google_maps_url := url }

/-- Pipeline for one feed item: business-name guard, dedup check, Dedup Index
insertion, optional enrichment (recorded in `fetchedUrls`), filter
annotation, emission, counter increment (src/main.js 831-902). -/
def processPlace (cfg : Config) (fetch : String → Option String) (meta : QueryMeta)
    (st : RunState) (it : PlaceItem) : RunState × Option OutRecord :=
  match it.2 with
  | none => (st, none)
  | some c =>
    match candKey c with
    | none => (st, none)
    | some key =>
      if st.seen.contains key then (st, none)
      else
        let fetched :=
          if wantsEnrichment cfg c then
            match c.website with
            | some w => [w]
            | none => []
          else []
        ({ seen := key :: st.seen
           totalExtracted := st.totalExtracted + 1
           fetchedUrls := fetched ++ st.fetchedUrls },
         some (emitRecord cfg fetch meta it.1 c))

/-- The for-loop over one query's collected place URLs (src/main.js 831). -/
def processCandidates (cfg : Config) (fetch : String → Option String)
    (meta : QueryMeta) (st : RunState) : List PlaceItem → RunState × List OutRecord
  | [] => (st, [])
  | it :: rest =>
    match processPlace cfg fetch meta st it with
    | (st1, none) => processCandidates cfg fetch meta st1 rest
    | (st1, some r) =>
      let out := processCandidates cfg fetch meta st1 rest
      (out.1, r :: out.2)

/-- The whole run: queries processed strictly in order, the Dedup Index
threaded through all of them (src/main.js 764-923). -/
def runAll (cfg : Config) (fetch : String → Option String) :
    List (QueryMeta × List PlaceItem) → RunState → RunState × List OutRecord
  | [], st => (st, [])
  | (meta, items) :: qs, st =>
    let q := processCandidates cfg fetch meta st items
    let rest := runAll cfg fetch qs q.1
    (rest.1, q.2 ++ rest.2)

/-- Initial run state (src/main.js 764-765). -/
def initState : RunState := { seen := [], totalExtracted := 0, fetchedUrls := [] }

/-! ## Specification-side first-occurrence selector (for claim C1) -/

/-- Keep, in order, exactly the first item of the stream bearing each
DedupKey (items without a key are dropped). -/
def firstByKeyAux (seen : List String) :
    List (QueryMeta × PlaceItem) → List (QueryMeta × PlaceItem)
  | [] => []
  | (m, it) :: rest =>
    match itemKey it with
    | none => firstByKeyAux seen rest
    | some k =>
      if seen.contains k then firstByKeyAux seen rest
      else (m, it) :: firstByKeyAux (k :: seen) rest

/-- The run's candidate stream flattened in query order, then feed order. -/
def flattenRun : List (QueryMeta × List PlaceItem) → List (QueryMeta × PlaceItem)
  | [] => []
  | (m, items) :: qs => items.map (fun it => (m, it)) ++ flattenRun qs

/-- Record built from a stream entry (total function; the `none` branch is
never reached on `firstByKeyAux` output). -/
def emitItem (cfg : Config) (fetch : String → Option String)
    (p : QueryMeta × PlaceItem) : OutRecord :=
  match p.2.2 with
  | some c => emitRecord cfg fetch p.1 p.2.1 c
  | none => emitRecord cfg fetch p.1 p.2.1 {}

/-- DedupKey recomputed from an emitted record. -/
def recordKey (r : OutRecord) : String :=
  generatePlaceKey r.business_name (r.address.getD "")

/-! ## Validation and top-level control flow (src/main.js 740-751, 924-937) -/

/-- JS `String.prototype.trim` at the string level. -/
def jsTrim (s : String) : String := ⟨trimWs s.data⟩

/-- Per-query validation loop (src/main.js 744-751): first failing check
wins.  A blank (`trim() === ''`) field covers the JS falsy check as well. -/
def validateQueries : List Query → Except String Unit
  | [] => .ok ()
  | q :: rest =>
    if jsTrim q.searchTerm = "" then .error "Each query must have a searchTerm"
    else if jsTrim q.location = "" then .error "Each query must have a location"
    else validateQueries rest

/-- Sequential per-query harvesting, 0-based loop index (src/main.js 767). -/
def harvestAll (harvest : Nat → Query → List OutRecord) :
    Nat → List Query → List OutRecord
  | _, [] => []
  | i, q :: rest => harvest i q ++ harvestAll harvest (i + 1) rest

/-- Top-level actor control flow: validate, then run one fully-drained
harvester per query in input order.  The per-query harvest is a parameter
(it depends on the live feed and may yield zero records for a failed query).
`Except.error` models the rethrown error with its non-zero process exit;
`Except.ok` the normal `Actor.exit()` with exit code zero. -/
def runActor (harvest : Nat → Query → List OutRecord) (raw : RawInput) :
    Except String (List OutRecord) :=
  if raw.queries.isEmpty then .error "queries array is required and must not be empty"
  else
    match validateQueries raw.queries with
    | .error e => .error e
    | .ok _ => .ok (harvestAll harvest 0 raw.queries)

/-! ## Claim C4: filter predicate order -/

theorem ratingBelow_iff (mr r : Option Rat) :
    ratingBelow mr r = true ↔
      mr ≠ none ∧ (r = none ∨ ∃ rv m, r = some rv ∧ mr = some m ∧ rv < m) := by
  cases mr with
  | none => simp [ratingBelow]
  | some m =>
    cases r with
    | none => simp [ratingBelow]
    | some rv => simp [ratingBelow]

/-- C4: the filter decision tests the predicates in the fixed order `closed`,
`no_website`, `low_rating` with first match winning, and exactly one status
results: `closed` iff `skipClosedPlaces` and the record is closed; else
`no_website` iff `requireWebsite` and the website is absent (falsy); else
`low_rating` iff `minRating` is set and the rating is absent or below it;
otherwise `extracted`. -/
theorem filter_pipeline_order (cfg : Config) (isClosed : Bool)
    (website : Option String) (rating : Option Rat) :
    (filterStatusOf cfg isClosed website rating = "closed" ↔
      cfg.skipClosedPlaces = true ∧ isClosed = true) ∧
    (filterStatusOf cfg isClosed website rating = "no_website" ↔
      ¬(cfg.skipClosedPlaces = true ∧ isClosed = true) ∧
      cfg.requireWebsite = true ∧ optTruthy website = false) ∧
    (filterStatusOf cfg isClosed website rating = "low_rating" ↔
      ¬(cfg.skipClosedPlaces = true ∧ isClosed = true) ∧
      ¬(cfg.requireWebsite = true ∧ optTruthy website = false) ∧
      cfg.minRating ≠ none ∧
      (rating = none ∨ ∃ rv m, rating = some rv ∧ cfg.minRating = some m ∧ rv < m)) ∧
    (filterStatusOf cfg isClosed website rating = "extracted" ↔
      ¬(cfg.skipClosedPlaces = true ∧ isClosed = true) ∧
      ¬(cfg.requireWebsite = true ∧ optTruthy website = false) ∧
      ¬(cfg.minRating ≠ none ∧
        (rating = none ∨ ∃ rv m, rating = some rv ∧ cfg.minRating = some m ∧ rv < m))) := by
  unfold filterStatusOf
  by_cases h1 : (cfg.skipClosedPlaces && isClosed) = true
  · rw [if_pos h1]
    simp only [Bool.and_eq_true] at h1
    exact ⟨⟨fun _ => h1, fun _ => rfl⟩,
      ⟨fun h => absurd h (by decide), fun h => absurd h1 h.1⟩,
      ⟨fun h => absurd h (by decide), fun h => absurd h1 h.1⟩,
      ⟨fun h => absurd h (by decide), fun h => absurd h1 h.1⟩⟩
  · rw [if_neg h1]
    simp only [Bool.and_eq_true] at h1
    by_cases h2 : (cfg.requireWebsite && !optTruthy website) = true
    · rw [if_pos h2]
      simp only [Bool.and_eq_true, Bool.not_eq_true'] at h2
      exact ⟨⟨fun h => absurd h (by decide), fun h => absurd h h1⟩,
        ⟨fun _ => ⟨h1, h2⟩, fun _ => rfl⟩,
        ⟨fun h => absurd h (by decide), fun h => absurd h2 h.2.1⟩,
        ⟨fun h => absurd h (by decide), fun h => absurd h2 h.2.1⟩⟩
    · rw [if_neg h2]
      simp only [Bool.and_eq_true, Bool.not_eq_true'] at h2
      by_cases h3 : ratingBelow cfg.minRating rating = true
      · rw [if_pos h3]
        have h3' := (ratingBelow_iff cfg.minRating rating).mp h3
        exact ⟨⟨fun h => absurd h (by decide), fun h => absurd h h1⟩,
          ⟨fun h => absurd h (by decide), fun h => absurd h.2 h2⟩,
          ⟨fun _ => ⟨h1, h2, h3'⟩, fun _ => rfl⟩,
          ⟨fun h => absurd h (by decide), fun h => absurd h3' h.2.2⟩⟩
      · rw [if_neg h3]
        have h3' : ¬(cfg.minRating ≠ none ∧
            (rating = none ∨ ∃ rv m, rating = some rv ∧ cfg.minRating = some m ∧ rv < m)) :=
          fun hp => h3 ((ratingBelow_iff cfg.minRating rating).mpr hp)
        exact ⟨⟨fun h => absurd h (by decide), fun h => absurd h h1⟩,
          ⟨fun h => absurd h (by decide), fun h => absurd h.2 h2⟩,
          ⟨fun h => absurd h (by decide), fun h => absurd h.2.2 h3'⟩,
          ⟨fun _ => ⟨h1, h2, h3'⟩, fun _ => rfl⟩⟩

/-! ## Claim C7: input validation gate -/

theorem validateQueries_error_of_blank :
    ∀ qs : List Query, (∃ q ∈ qs, jsTrim q.searchTerm = "" ∨ jsTrim q.location = "") →
      ∃ e, validateQueries qs = .error e := by
  intro qs
  induction qs with
  | nil => intro ⟨q, hq, _⟩; exact absurd hq (List.not_mem_nil q)
  | cons q rest ih =>
    intro ⟨q', hq', hblank⟩
    unfold validateQueries
    by_cases hs : jsTrim q.searchTerm = ""
    · rw [if_pos hs]
      exact ⟨_, rfl⟩
    · rw [if_neg hs]
      by_cases hl : jsTrim q.location = ""
      · rw [if_pos hl]
        exact ⟨_, rfl⟩
      · rw [if_neg hl]
        rcases List.mem_cons.mp hq' with h | h
        · subst h
          rcases hblank with hb | hb
          · exact absurd hb hs
          · exact absurd hb hl
        · exact ih ⟨q', h, hblank⟩

theorem validateQueries_ok_of_valid :
    ∀ qs : List Query, (∀ q ∈ qs, jsTrim q.searchTerm ≠ "" ∧ jsTrim q.location ≠ "") →
      validateQueries qs = .ok () := by
  intro qs
  induction qs with
  | nil => intro _; rfl
  | cons q rest ih =>
    intro h
    have hq := h q (List.mem_cons_self q rest)
    unfold validateQueries
    rw [if_neg hq.1, if_neg hq.2]
    exact ih fun q' hq' => h q' (List.mem_cons_of_mem q hq')

/-- C7: an empty query list, or any query with a blank (empty or
whitespace-only) searchTerm or location, makes the run fail validation before
any harvesting — the result is the surfaced error and carries no records,
modelling the rethrow and non-zero process exit.  Every valid input completes
normally (`ok`, exit zero) with the concatenated per-query harvests, whatever
each per-query harvest returns (partial per-query failures yield `[]` and do
not fail the run). -/
theorem input_validation_gate (harvest : Nat → Query → List OutRecord)
    (raw : RawInput) :
    (raw.queries = [] → runActor harvest raw =
      .error "queries array is required and must not be empty") ∧
    ((∃ q ∈ raw.queries, jsTrim q.searchTerm = "" ∨ jsTrim q.location = "") →
      ∃ e, runActor harvest raw = .error e) ∧
    (raw.queries ≠ [] →
      (∀ q ∈ raw.queries, jsTrim q.searchTerm ≠ "" ∧ jsTrim q.location ≠ "") →
      runActor harvest raw = .ok (harvestAll harvest 0 raw.queries)) := by
  refine ⟨?_, ?_, ?_⟩
  · intro h
    unfold runActor
    rw [if_pos (by simp [h])]
  · intro h
    have hne : raw.queries ≠ [] := by
      rcases h with ⟨q, hq, _⟩
      intro hnil
      rw [hnil] at hq
      exact absurd hq (List.not_mem_nil q)
    obtain ⟨e, he⟩ := validateQueries_error_of_blank raw.queries h
    refine ⟨e, ?_⟩
    unfold runActor
    rw [if_neg (by simp [List.isEmpty_iff, hne]), he]
  · intro hne hvalid
    unfold runActor
    rw [if_neg (by simp [List.isEmpty_iff, hne]), validateQueries_ok_of_valid raw.queries hvalid]

/-- Witness for C7: a concrete empty input, a concrete blank-searchTerm
input, and a concrete valid input, run through `runActor`. -/
theorem input_validation_gate_witness :
    runActor (fun _ _ => []) { queries := [] } =
      .error "queries array is required and must not be empty" ∧
    (∃ e, runActor (fun _ _ => [])
      { queries := [{ searchTerm := " ", location := "Austin, TX" }] } = .error e) ∧
    runActor (fun _ _ => [])
      { queries := [{ searchTerm := "dentists", location := "Austin, TX" }] } =
      .ok (harvestAll (fun _ _ => []) 0
        [{ searchTerm := "dentists", location := "Austin, TX" }]) := by
  refine ⟨?_, ?_, ?_⟩
  · exact (input_validation_gate (fun _ _ => []) { queries := [] }).1 rfl
  · exact (input_validation_gate (fun _ _ => [])
      { queries := [{ searchTerm := " ", location := "Austin, TX" }] }).2.1
      ⟨{ searchTerm := " ", location := "Austin, TX" }, by simp, Or.inl (by decide)⟩
  · exact (input_validation_gate (fun _ _ => [])
      { queries := [{ searchTerm := "dentists", location := "Austin, TX" }] }).2.2
      (by simp) (by decide)

/-! ## Claim C1: global dedup uniqueness and first-occurrence emission -/

/-- The DedupKeys occurring in a stream, in order. -/
def streamKeys (l : List (QueryMeta × PlaceItem)) : List String :=
  l.filterMap fun p => itemKey p.2

/-- Key carried by a stream entry (total; `""` only off the keyed sublist). -/
def streamKeyD (p : QueryMeta × PlaceItem) : String := (itemKey p.2).getD ""

theorem firstByKeyAux_congr (l : List (QueryMeta × PlaceItem)) :
    ∀ {s1 s2 : List String}, (∀ x : String, s1.contains x = s2.contains x) →
      firstByKeyAux s1 l = firstByKeyAux s2 l := by
  induction l with
  | nil => intro s1 s2 _; rfl
  | cons p rest ih =>
    intro s1 s2 h
    obtain ⟨m, it⟩ := p
    cases hk : itemKey it with
    | none =>
      unfold firstByKeyAux
      simp only [hk]
      exact ih h
    | some k =>
      unfold firstByKeyAux
      simp only [hk]
      rw [h k]
      by_cases hc : s2.contains k = true
      · rw [if_pos hc, if_pos hc]
        exact ih h
      · rw [if_neg hc, if_neg hc]
        have h' : ∀ x : String, (k :: s1).contains x = (k :: s2).contains x := by
          intro x
          rw [List.contains_cons, List.contains_cons, h x]
        rw [ih h']

theorem contains_cons_false {k x : String} {s : List String}
    (h : (k :: s).contains x = false) : x ≠ k ∧ s.contains x = false := by
  rw [List.contains_cons] at h
  rcases Bool.or_eq_false_iff.mp h with ⟨h1, h2⟩
  exact ⟨fun he => by simp [he] at h1, h2⟩

theorem firstByKeyAux_sound (l : List (QueryMeta × PlaceItem)) :
    ∀ seen : List String,
      ((firstByKeyAux seen l).map streamKeyD).Nodup ∧
      ∀ p ∈ firstByKeyAux seen l,
        itemKey p.2 = some (streamKeyD p) ∧ seen.contains (streamKeyD p) = false := by
  induction l with
  | nil => intro seen; exact ⟨List.nodup_nil, fun p hp => absurd hp (List.not_mem_nil p)⟩
  | cons q rest ih =>
    intro seen
    obtain ⟨m, it⟩ := q
    cases hk : itemKey it with
    | none =>
      unfold firstByKeyAux
      simp only [hk]
      exact ih seen
    | some k =>
      unfold firstByKeyAux
      simp only [hk]
      by_cases hc : seen.contains k = true
      · rw [if_pos hc]
        exact ih seen
      · rw [if_neg hc]
        have ihk := ih (k :: seen)
        have hkd : streamKeyD (m, it) = k := by simp [streamKeyD, hk]
        constructor
        · simp only [List.map_cons, hkd]
          rw [List.nodup_cons]
          refine ⟨?_, ihk.1⟩
          intro hmem
          rcases List.mem_map.mp hmem with ⟨p, hp, hpk⟩
          have := (ihk.2 p hp).2
          rw [hpk] at this
          exact absurd rfl (contains_cons_false this).1
        · intro p hp
          rcases List.mem_cons.mp hp with h | h
          · subst h
            refine ⟨by simp [streamKeyD, hk], ?_⟩
            rw [hkd]
            cases hcc : seen.contains k with
            | false => rfl
            | true => exact absurd hcc hc
          · have := ihk.2 p h
            exact ⟨this.1, (contains_cons_false this.2).2⟩

theorem fbk_cons_none (seen : List String) (m : QueryMeta) (it : PlaceItem)
    (rest : List (QueryMeta × PlaceItem)) (hk : itemKey it = none) :
    firstByKeyAux seen ((m, it) :: rest) = firstByKeyAux seen rest := by
  conv_lhs => unfold firstByKeyAux
  simp only [hk]

theorem fbk_cons_dup (seen : List String) (m : QueryMeta) (it : PlaceItem)
    (rest : List (QueryMeta × PlaceItem)) {k : String} (hk : itemKey it = some k)
    (hc : seen.contains k = true) :
    firstByKeyAux seen ((m, it) :: rest) = firstByKeyAux seen rest := by
  conv_lhs => unfold firstByKeyAux
  simp only [hk]
  rw [if_pos hc]

theorem fbk_cons_new (seen : List String) (m : QueryMeta) (it : PlaceItem)
    (rest : List (QueryMeta × PlaceItem)) {k : String} (hk : itemKey it = some k)
    (hc : seen.contains k = false) :
    firstByKeyAux seen ((m, it) :: rest) = (m, it) :: firstByKeyAux (k :: seen) rest := by
  conv_lhs => unfold firstByKeyAux
  simp only [hk]
  rw [if_neg (fun h => Bool.false_ne_true (hc ▸ h))]

theorem contains_eq_decide_mem (l : List String) (x : String) :
    l.contains x = decide (x ∈ l) := by
  induction l with
  | nil => simp
  | cons a t ih =>
    rw [List.contains_cons, ih]
    by_cases hx : x = a
    · simp [hx]
    · simp [hx]

theorem firstByKeyAux_append (B : List (QueryMeta × PlaceItem)) :
    ∀ (A : List (QueryMeta × PlaceItem)) (s : List String),
      firstByKeyAux s (A ++ B) =
        firstByKeyAux s A ++ firstByKeyAux (streamKeys A ++ s) B := by
  intro A
  induction A with
  | nil => intro s; rfl
  | cons q A' ih =>
    intro s
    obtain ⟨m, it⟩ := q
    rw [List.cons_append]
    cases hk : itemKey it with
    | none =>
      have hkeys : streamKeys ((m, it) :: A') = streamKeys A' := by
        simp [streamKeys, List.filterMap_cons, hk]
      rw [hkeys, fbk_cons_none s m it (A' ++ B) hk, fbk_cons_none s m it A' hk]
      exact ih s
    | some k =>
      have hkeys : streamKeys ((m, it) :: A') = k :: streamKeys A' := by
        simp [streamKeys, List.filterMap_cons, hk]
      rw [hkeys]
      by_cases hc : s.contains k = true
      · rw [fbk_cons_dup s m it (A' ++ B) hk hc, fbk_cons_dup s m it A' hk hc, ih s]
        have hkmem : k ∈ s := of_decide_eq_true (contains_eq_decide_mem s k ▸ hc)
        have hcongr : ∀ x : String,
            (streamKeys A' ++ s).contains x = ((k :: streamKeys A') ++ s).contains x := by
          intro x
          rw [contains_eq_decide_mem, contains_eq_decide_mem]
          apply decide_eq_decide.mpr
          constructor
          · intro hx
            rcases List.mem_append.mp hx with hx | hx
            · exact List.mem_append.mpr (Or.inl (List.mem_cons_of_mem k hx))
            · exact List.mem_append.mpr (Or.inr hx)
          · intro hx
            rcases List.mem_append.mp hx with hx | hx
            · rcases List.mem_cons.mp hx with hx | hx
              · exact List.mem_append.mpr (Or.inr (hx ▸ hkmem))
              · exact List.mem_append.mpr (Or.inl hx)
            · exact List.mem_append.mpr (Or.inr hx)
        rw [firstByKeyAux_congr B hcongr]
      · have hc' : s.contains k = false := by
          cases hcc : s.contains k
          · rfl
          · exact absurd hcc hc
        rw [fbk_cons_new s m it (A' ++ B) hk hc', fbk_cons_new s m it A' hk hc', ih (k :: s)]
        have hcongr : ∀ x : String,
            (streamKeys A' ++ k :: s).contains x = ((k :: streamKeys A') ++ s).contains x := by
          intro x
          rw [contains_eq_decide_mem, contains_eq_decide_mem]
          apply decide_eq_decide.mpr
          constructor
          · intro hx
            rcases List.mem_append.mp hx with hx | hx
            · exact List.mem_append.mpr (Or.inl (List.mem_cons_of_mem k hx))
            · rcases List.mem_cons.mp hx with hx | hx
              · exact List.mem_append.mpr (Or.inl (hx ▸ List.mem_cons_self k _))
              · exact List.mem_append.mpr (Or.inr hx)
          · intro hx
            rcases List.mem_append.mp hx with hx | hx
            · rcases List.mem_cons.mp hx with hx | hx
              · exact List.mem_append.mpr (Or.inr (hx ▸ List.mem_cons_self k s))
              · exact List.mem_append.mpr (Or.inl hx)
            · exact List.mem_append.mpr (Or.inr (List.mem_cons_of_mem k hx))
        rw [List.cons_append, firstByKeyAux_congr B hcongr]

theorem itemKey_pair_none (url : String) : itemKey (url, none) = none := rfl

theorem itemKey_pair_some (url : String) (c : Candidate) :
    itemKey (url, some c) = candKey c := rfl

theorem processPlace_none_item (cfg : Config) (fetch : String → Option String)
    (meta : QueryMeta) (st : RunState) (url : String) :
    processPlace cfg fetch meta st (url, none) = (st, none) := rfl

theorem processPlace_nokey (cfg : Config) (fetch : String → Option String)
    (meta : QueryMeta) (st : RunState) (url : String) {c : Candidate}
    (hk : candKey c = none) :
    processPlace cfg fetch meta st (url, some c) = (st, none) := by
  conv_lhs => unfold processPlace
  simp only [hk]

theorem processPlace_dup (cfg : Config) (fetch : String → Option String)
    (meta : QueryMeta) (st : RunState) (url : String) {c : Candidate} {k : String}
    (hk : candKey c = some k) (hc : st.seen.contains k = true) :
    processPlace cfg fetch meta st (url, some c) = (st, none) := by
  conv_lhs => unfold processPlace
  simp only [hk]
  rw [if_pos hc]

theorem processPlace_new (cfg : Config) (fetch : String → Option String)
    (meta : QueryMeta) (st : RunState) (url : String) {c : Candidate} {k : String}
    (hk : candKey c = some k) (hc : st.seen.contains k = false) :
    processPlace cfg fetch meta st (url, some c) =
      ({ seen := k :: st.seen
         totalExtracted := st.totalExtracted + 1
         fetchedUrls :=
           (if wantsEnrichment cfg c then
             match c.website with
             | some w => [w]
             | none => []
           else []) ++ st.fetchedUrls },
       some (emitRecord cfg fetch meta url c)) := by
  conv_lhs => unfold processPlace
  simp only [hk]
  rw [if_neg (fun h => Bool.false_ne_true (hc ▸ h))]

theorem processCandidates_cons_skip {cfg : Config} {fetch : String → Option String}
    {meta : QueryMeta} {st st' : RunState} {it : PlaceItem}
    (h : processPlace cfg fetch meta st it = (st', none)) (rest : List PlaceItem) :
    processCandidates cfg fetch meta st (it :: rest) =
      processCandidates cfg fetch meta st' rest := by
  conv_lhs => unfold processCandidates
  simp only [h]

theorem processCandidates_cons_emit {cfg : Config} {fetch : String → Option String}
    {meta : QueryMeta} {st st' : RunState} {it : PlaceItem} {r : OutRecord}
    (h : processPlace cfg fetch meta st it = (st', some r)) (rest : List PlaceItem) :
    processCandidates cfg fetch meta st (it :: rest) =
      ((processCandidates cfg fetch meta st' rest).1,
       r :: (processCandidates cfg fetch meta st' rest).2) := by
  conv_lhs => unfold processCandidates
  simp only [h]

theorem processCandidates_spec (cfg : Config) (fetch : String → Option String)
    (meta : QueryMeta) :
    ∀ (items : List PlaceItem) (st : RunState),
      (processCandidates cfg fetch meta st items).2 =
        (firstByKeyAux st.seen (items.map fun it => (meta, it))).map (emitItem cfg fetch) ∧
      ∀ x : String, (processCandidates cfg fetch meta st items).1.seen.contains x =
        (st.seen.contains x || (items.filterMap itemKey).contains x) := by
  intro items
  induction items with
  | nil =>
    intro st
    exact ⟨rfl, fun x => by
      show st.seen.contains x = _
      simp⟩
  | cons it rest ih =>
    intro st
    obtain ⟨url, oc⟩ := it
    cases oc with
    | none =>
      rw [processCandidates_cons_skip (processPlace_none_item cfg fetch meta st url) rest]
      constructor
      · rw [(ih st).1, List.map_cons, fbk_cons_none st.seen meta (url, none) _ (itemKey_pair_none url)]
      · intro x
        rw [(ih st).2 x, List.filterMap_cons]
        simp only [itemKey_pair_none]
    | some c =>
      cases hk : candKey c with
      | none =>
        have hik : itemKey (url, some c) = none := by rw [itemKey_pair_some, hk]
        rw [processCandidates_cons_skip (processPlace_nokey cfg fetch meta st url hk) rest]
        constructor
        · rw [(ih st).1, List.map_cons, fbk_cons_none st.seen meta (url, some c) _ hik]
        · intro x
          rw [(ih st).2 x, List.filterMap_cons]
          simp only [hik]
      | some k =>
        have hik : itemKey (url, some c) = some k := by rw [itemKey_pair_some, hk]
        by_cases hc : st.seen.contains k = true
        · rw [processCandidates_cons_skip (processPlace_dup cfg fetch meta st url hk hc) rest]
          constructor
          · rw [(ih st).1, List.map_cons, fbk_cons_dup st.seen meta (url, some c) _ hik hc]
          · intro x
            rw [(ih st).2 x, List.filterMap_cons]
            simp only [hik, List.contains_cons]
            by_cases hx : (x == k) = true
            · have hxk : x = k := beq_iff_eq.mp hx
              subst hxk
              rw [hc]
              simp
            · simp only [Bool.not_eq_true] at hx
              rw [hx, Bool.false_or]
        · have hc' : st.seen.contains k = false := by
            cases hcc : st.seen.contains k
            · rfl
            · exact absurd hcc hc
          rw [processCandidates_cons_emit (processPlace_new cfg fetch meta st url hk hc') rest]
          have ih1 := ih { seen := k :: st.seen
                           totalExtracted := st.totalExtracted + 1
                           fetchedUrls :=
                             (if wantsEnrichment cfg c then
                               match c.website with
                               | some w => [w]
                               | none => []
                             else []) ++ st.fetchedUrls }
          constructor
          · rw [List.map_cons, fbk_cons_new st.seen meta (url, some c) _ hik hc', List.map_cons]
            rw [ih1.1]
            rfl
          · intro x
            rw [ih1.2 x, List.filterMap_cons]
            simp only [hik, List.contains_cons]
            cases hx : x == k <;> simp

theorem contains_append_str (l1 l2 : List String) (x : String) :
    (l1 ++ l2).contains x = (l1.contains x || l2.contains x) := by
  rw [contains_eq_decide_mem, contains_eq_decide_mem, contains_eq_decide_mem]
  by_cases h1 : x ∈ l1
  · simp [h1]
  · by_cases h2 : x ∈ l2 <;> simp [h1, h2]

theorem streamKeys_map_query (meta : QueryMeta) (items : List PlaceItem) :
    streamKeys (items.map fun it => (meta, it)) = items.filterMap itemKey := by
  unfold streamKeys
  rw [List.filterMap_map]
  rfl

theorem streamKeys_append (A B : List (QueryMeta × PlaceItem)) :
    streamKeys (A ++ B) = streamKeys A ++ streamKeys B := by
  unfold streamKeys
  rw [List.filterMap_append]

theorem runAll_cons (cfg : Config) (fetch : String → Option String)
    (meta : QueryMeta) (items : List PlaceItem)
    (qs : List (QueryMeta × List PlaceItem)) (st : RunState) :
    runAll cfg fetch ((meta, items) :: qs) st =
      ((runAll cfg fetch qs (processCandidates cfg fetch meta st items).1).1,
       (processCandidates cfg fetch meta st items).2 ++
         (runAll cfg fetch qs (processCandidates cfg fetch meta st items).1).2) := rfl

theorem runAll_spec (cfg : Config) (fetch : String → Option String) :
    ∀ (qs : List (QueryMeta × List PlaceItem)) (st : RunState),
      (runAll cfg fetch qs st).2 =
        (firstByKeyAux st.seen (flattenRun qs)).map (emitItem cfg fetch) ∧
      ∀ x : String, (runAll cfg fetch qs st).1.seen.contains x =
        (st.seen.contains x || (streamKeys (flattenRun qs)).contains x) := by
  intro qs
  induction qs with
  | nil =>
    intro st
    exact ⟨rfl, fun x => by
      show st.seen.contains x = _
      simp [streamKeys, flattenRun]⟩
  | cons q qs' ih =>
    intro st
    obtain ⟨meta, items⟩ := q
    rw [runAll_cons]
    have hpc := processCandidates_spec cfg fetch meta items st
    have hihc := ih (processCandidates cfg fetch meta st items).1
    have hflat : flattenRun ((meta, items) :: qs') =
        (items.map fun it => (meta, it)) ++ flattenRun qs' := rfl
    have hseen : ∀ x : String,
        (processCandidates cfg fetch meta st items).1.seen.contains x =
          ((streamKeys (items.map fun it => (meta, it))) ++ st.seen).contains x := by
      intro x
      rw [hpc.2 x, contains_append_str, streamKeys_map_query]
      cases st.seen.contains x <;> cases (items.filterMap itemKey).contains x <;> simp
    constructor
    · show (processCandidates cfg fetch meta st items).2 ++
        (runAll cfg fetch qs' (processCandidates cfg fetch meta st items).1).2 = _
      rw [hpc.1, hihc.1, hflat, firstByKeyAux_append, List.map_append]
      rw [firstByKeyAux_congr (flattenRun qs') hseen]
    · intro x
      show (runAll cfg fetch qs' (processCandidates cfg fetch meta st items).1).1.seen.contains x = _
      rw [hihc.2 x, hpc.2 x, hflat, streamKeys_append, contains_append_str,
        streamKeys_map_query]
      cases st.seen.contains x <;>
        cases (items.filterMap itemKey).contains x <;>
        cases (streamKeys (flattenRun qs')).contains x <;> simp

theorem recordKey_emitItem (cfg : Config) (fetch : String → Option String)
    {p : QueryMeta × PlaceItem} {k : String} (h : itemKey p.2 = some k) :
    recordKey (emitItem cfg fetch p) = k := by
  obtain ⟨m, url, oc⟩ := p
  cases oc with
  | none => exact absurd h (by simp [itemKey_pair_none])
  | some c =>
    rw [itemKey_pair_some] at h
    unfold candKey at h
    cases hb : c.business_name with
    | none =>
      rw [hb] at h
      exact absurd h (by simp)
    | some n =>
      simp only [hb] at h
      by_cases hn : n = ""
      · rw [if_pos hn] at h
        exact absurd h (by simp)
      · rw [if_neg hn] at h
        have hkey : generatePlaceKey n (c.address.getD "") = k := by
          injection h
        show recordKey (emitRecord cfg fetch m url c) = k
        unfold recordKey emitRecord
        simp only [hb, Option.getD_some]
        exact hkey

/-- C1: in every run, the records emitted to the unified Dataset have pairwise
distinct DedupKeys, and the emitted sequence is exactly the image, in query
order then feed order, of the first candidate encountered for each DedupKey —
every later candidate with an already-seen key is discarded. -/
theorem dedup_global_uniqueness (cfg : Config) (fetch : String → Option String)
    (qs : List (QueryMeta × List PlaceItem)) :
    List.Pairwise (fun r1 r2 => recordKey r1 ≠ recordKey r2)
      (runAll cfg fetch qs initState).2 ∧
    (runAll cfg fetch qs initState).2 =
      (firstByKeyAux [] (flattenRun qs)).map (emitItem cfg fetch) := by
  have hchar := (runAll_spec cfg fetch qs initState).1
  refine ⟨?_, hchar⟩
  rw [hchar, List.pairwise_map]
  have hsound := firstByKeyAux_sound (flattenRun qs) []
  have hpw : List.Pairwise (fun a b => streamKeyD a ≠ streamKeyD b)
      (firstByKeyAux [] (flattenRun qs)) := List.pairwise_map.mp hsound.1
  refine List.Pairwise.imp_of_mem ?_ hpw
  intro a b ha hb hne
  rw [recordKey_emitItem cfg fetch (hsound.2 a ha).1,
    recordKey_emitItem cfg fetch (hsound.2 b hb).1]
  exact hne

/-! ## Claims C2, C3, C10: per-item pipeline behaviour -/

/-- C3: a DedupKey already present in the Dedup Index short-circuits the
whole remaining pipeline for that item — the membership check runs before
enrichment and before filter annotation, so nothing is fetched, nothing is
emitted, and the state (index, counters, fetch trace) is unchanged. -/
theorem dedup_short_circuits_pipeline (cfg : Config) (fetch : String → Option String)
    (meta : QueryMeta) (st : RunState) (url : String) (c : Candidate) (k : String)
    (hk : candKey c = some k) (hc : st.seen.contains k = true) :
    (processPlace cfg fetch meta st (url, some c)).2 = none ∧
    (processPlace cfg fetch meta st (url, some c)).1.fetchedUrls = st.fetchedUrls ∧
    (processPlace cfg fetch meta st (url, some c)).1.totalExtracted = st.totalExtracted ∧
    (processPlace cfg fetch meta st (url, some c)).1.seen = st.seen := by
  rw [processPlace_dup cfg fetch meta st url hk hc]
  exact ⟨rfl, rfl, rfl, rfl⟩

/-- Default configuration with enrichment on (for concrete witnesses). -/
def cfgEnrich : Config :=
  { language := "en", skipClosedPlaces := true, minRating := none,
    requireWebsite := false, shouldExtractEmail := true }

/-- Default configuration with enrichment off (for concrete witnesses). -/
def cfgNoEnrich : Config :=
  { language := "en", skipClosedPlaces := true, minRating := none,
    requireWebsite := false, shouldExtractEmail := false }

/-- A concrete candidate with website and no email. -/
def candJoe : Candidate :=
  { business_name := some "Joe Cafe", address := some "1 Main St",
    website := some "https://joecafe.test" }

/-- A concrete closed candidate. -/
def candOldDiner : Candidate :=
  { business_name := some "Old Diner", address := some "2 Oak Ave", isClosed := true }

def metaCafes : QueryMeta := { searchTerm := "cafes", location := "Austin, TX", queryIndex := 0 }

/-- A run state already holding `candJoe`'s DedupKey. -/
def stHasJoe : RunState :=
  { seen := [generatePlaceKey "Joe Cafe" "1 Main St"], totalExtracted := 1, fetchedUrls := [] }

/-- Witness for C3: a concrete duplicate candidate is fully skipped even
though it has a website and no email (enrichment would otherwise run). -/
theorem dedup_short_circuits_pipeline_witness :
    (processPlace cfgEnrich (fun _ => some "found@example.org") metaCafes stHasJoe
      ("https://maps.test/place1", some candJoe)).2 = none ∧
    (processPlace cfgEnrich (fun _ => some "found@example.org") metaCafes stHasJoe
      ("https://maps.test/place1", some candJoe)).1.fetchedUrls = stHasJoe.fetchedUrls ∧
    (processPlace cfgEnrich (fun _ => some "found@example.org") metaCafes stHasJoe
      ("https://maps.test/place1", some candJoe)).1.totalExtracted = stHasJoe.totalExtracted ∧
    (processPlace cfgEnrich (fun _ => some "found@example.org") metaCafes stHasJoe
      ("https://maps.test/place1", some candJoe)).1.seen = stHasJoe.seen :=
  dedup_short_circuits_pipeline cfgEnrich _ metaCafes stHasJoe _ candJoe
    (generatePlaceKey "Joe Cafe" "1 Main St") rfl (by decide)

/-- C2: with `skipClosedPlaces = true`, a closed candidate is not dropped: it
is emitted annotated `filter_status = "closed"`, its DedupKey occupies a
Dedup Index slot, and any later candidate bearing the same key — from any
query and any state containing the key — is rejected. -/
theorem closed_places_annotated_not_dropped (cfg : Config)
    (fetch : String → Option String) (meta : QueryMeta) (st : RunState)
    (url : String) (c : Candidate) (k : String)
    (hskip : cfg.skipClosedPlaces = true) (hclosed : c.isClosed = true)
    (hk : candKey c = some k) (hc : st.seen.contains k = false) :
    ∃ st' r, processPlace cfg fetch meta st (url, some c) = (st', some r) ∧
      r.filter_status = "closed" ∧
      st'.seen.contains k = true ∧
      ∀ (meta2 : QueryMeta) (st2 : RunState) (url2 : String) (c2 : Candidate),
        candKey c2 = some k → st2.seen.contains k = true →
        processPlace cfg fetch meta2 st2 (url2, some c2) = (st2, none) := by
  refine ⟨_, _, processPlace_new cfg fetch meta st url hk hc, ?_, ?_, ?_⟩
  · show filterStatusOf cfg c.isClosed c.website c.rating = "closed"
    unfold filterStatusOf
    rw [if_pos (by simp [hskip, hclosed])]
  · rw [List.contains_cons]
    simp
  · intro meta2 st2 url2 c2 hk2 hc2
    exact processPlace_dup cfg fetch meta2 st2 url2 hk2 hc2

/-- Witness for C2: a concrete closed place under `skipClosedPlaces = true`. -/
theorem closed_places_annotated_not_dropped_witness :
    ∃ st' r, processPlace cfgNoEnrich (fun _ => none) metaCafes initState
      ("https://maps.test/place2", some candOldDiner) = (st', some r) ∧
      r.filter_status = "closed" ∧
      st'.seen.contains (generatePlaceKey "Old Diner" "2 Oak Ave") = true ∧
      ∀ (meta2 : QueryMeta) (st2 : RunState) (url2 : String) (c2 : Candidate),
        candKey c2 = some (generatePlaceKey "Old Diner" "2 Oak Ave") →
        st2.seen.contains (generatePlaceKey "Old Diner" "2 Oak Ave") = true →
        processPlace cfgNoEnrich (fun _ => none) meta2 st2 (url2, some c2) = (st2, none) :=
  closed_places_annotated_not_dropped cfgNoEnrich _ metaCafes initState _ candOldDiner _
    rfl rfl rfl (by decide)

/-- C10: for an accepted candidate, the secondary website fetch happens
exactly when the (undocumented, default-true) `extractEmailFromWebsite` input
flag is on, the record has a truthy website, and no email was already found
in the detail page's own text; a detail-page email is kept verbatim and the
website is never fetched for it; the flag parses to `true` when absent. -/
theorem enrichment_trigger_conditions (cfg : Config)
    (fetch : String → Option String) (meta : QueryMeta) (st : RunState)
    (url : String) (c : Candidate) (k : String) (w : String)
    (hk : candKey c = some k) (hc : st.seen.contains k = false) :
    (cfg.shouldExtractEmail = true → c.website = some w → w ≠ "" → c.email = none →
      (processPlace cfg fetch meta st (url, some c)).1.fetchedUrls = w :: st.fetchedUrls ∧
      ∃ r, (processPlace cfg fetch meta st (url, some c)).2 = some r ∧ r.email = fetch w) ∧
    (∀ e : String, c.email = some e → e ≠ "" →
      (processPlace cfg fetch meta st (url, some c)).1.fetchedUrls = st.fetchedUrls ∧
      ∃ r, (processPlace cfg fetch meta st (url, some c)).2 = some r ∧ r.email = some e) ∧
    (cfg.shouldExtractEmail = false →
      (processPlace cfg fetch meta st (url, some c)).1.fetchedUrls = st.fetchedUrls) ∧
    (c.website = none →
      (processPlace cfg fetch meta st (url, some c)).1.fetchedUrls = st.fetchedUrls) ∧
    (∀ raw : RawInput, raw.extractEmailFromWebsiteFlag = none →
      (parseConfig raw).shouldExtractEmail = true) := by
  rw [processPlace_new cfg fetch meta st url hk hc]
  refine ⟨?_, ?_, ?_, ?_, ?_⟩
  · intro hfl hw hwne hemail
    have hwant : wantsEnrichment cfg c = true := by
      unfold wantsEnrichment optTruthy
      rw [hfl, hw, hemail]
      simp [hwne]
    constructor
    · show (if wantsEnrichment cfg c then
          match c.website with
          | some w => [w]
          | none => []
        else []) ++ st.fetchedUrls = w :: st.fetchedUrls
      rw [hwant, if_pos rfl]
      simp only [hw]
      rfl
    · refine ⟨emitRecord cfg fetch meta url c, rfl, ?_⟩
      show (if wantsEnrichment cfg c then
          match c.website with
          | some w => fetch w
          | none => c.email
        else c.email) = fetch w
      rw [hwant, if_pos rfl]
      simp only [hw]
  · intro e he hene
    have hwant : wantsEnrichment cfg c = false := by
      unfold wantsEnrichment optTruthy
      rw [he]
      simp [hene]
    constructor
    · show (if wantsEnrichment cfg c then
          match c.website with
          | some w => [w]
          | none => []
        else []) ++ st.fetchedUrls = st.fetchedUrls
      rw [hwant]
      simp
    · refine ⟨emitRecord cfg fetch meta url c, rfl, ?_⟩
      show (if wantsEnrichment cfg c then
          match c.website with
          | some w => fetch w
          | none => c.email
        else c.email) = some e
      rw [hwant]
      simp [he]
  · intro hfl
    have hwant : wantsEnrichment cfg c = false := by
      unfold wantsEnrichment
      rw [hfl]
      simp
    show (if wantsEnrichment cfg c then
        match c.website with
        | some w => [w]
        | none => []
      else []) ++ st.fetchedUrls = st.fetchedUrls
    rw [hwant]
    simp
  · intro hw
    have hwant : wantsEnrichment cfg c = false := by
      unfold wantsEnrichment optTruthy
      rw [hw]
      simp
    show (if wantsEnrichment cfg c then
        match c.website with
        | some w => [w]
        | none => []
      else []) ++ st.fetchedUrls = st.fetchedUrls
    rw [hwant]
    simp
  · intro raw hraw
    unfold parseConfig
    rw [hraw]
    rfl

/-- Witness for C10: a concrete accepted candidate with a website and no
detail-page email, under the default configuration. -/
theorem enrichment_trigger_conditions_witness :
    ((cfgEnrich.shouldExtractEmail = true → candJoe.website = some "https://joecafe.test" →
      "https://joecafe.test" ≠ "" → candJoe.email = none →
      (processPlace cfgEnrich (fun _ => some "found@example.org") metaCafes initState
        ("https://maps.test/place1", some candJoe)).1.fetchedUrls =
        "https://joecafe.test" :: initState.fetchedUrls ∧
      ∃ r, (processPlace cfgEnrich (fun _ => some "found@example.org") metaCafes initState
        ("https://maps.test/place1", some candJoe)).2 = some r ∧
        r.email = (fun _ : String => some "found@example.org") "https://joecafe.test") ∧
    (∀ e : String, candJoe.email = some e → e ≠ "" →
      (processPlace cfgEnrich (fun _ => some "found@example.org") metaCafes initState
        ("https://maps.test/place1", some candJoe)).1.fetchedUrls = initState.fetchedUrls ∧
      ∃ r, (processPlace cfgEnrich (fun _ => some "found@example.org") metaCafes initState
        ("https://maps.test/place1", some candJoe)).2 = some r ∧ r.email = some e) ∧
    (cfgEnrich.shouldExtractEmail = false →
      (processPlace cfgEnrich (fun _ => some "found@example.org") metaCafes initState
        ("https://maps.test/place1", some candJoe)).1.fetchedUrls = initState.fetchedUrls) ∧
    (candJoe.website = none →
      (processPlace cfgEnrich (fun _ => some "found@example.org") metaCafes initState
        ("https://maps.test/place1", some candJoe)).1.fetchedUrls = initState.fetchedUrls) ∧
    (∀ raw : RawInput, raw.extractEmailFromWebsiteFlag = none →
      (parseConfig raw).shouldExtractEmail = true)) :=
  enrichment_trigger_conditions cfgEnrich (fun _ => some "found@example.org")
    metaCafes initState "https://maps.test/place1" candJoe
    (generatePlaceKey "Joe Cafe" "1 Main St") "https://joecafe.test" rfl (by decide)

/-! ## Harvester scroll/extract loop (src/main.js 309-409, list variant)

The loop environment is the rendered feed, sampled once per iteration:
`endAt iter` is the end-of-list marker check (`isEndOfResults`), `cards iter`
the number of rendered result cards at that iteration.  The stall test
`newPlacesThisScroll === 0 && newCards.length === 0` reduces to
`newCards.length === 0`, because extracted places only arise from new cards;
`newCards = cards.slice(previousCardCount)` has length
`cards iter - previousCardCount` (truncated at zero).  A stall or end-marker
`break` leaves the loop before `scrollAttempts++` runs.  The while guard
`scrollAttempts < MAX_SCROLL_ATTEMPTS`, with `scrollAttempts` incremented
exactly once per completed iteration, is realized by starting from
`MAX_SCROLL_ATTEMPTS` units of fuel and spending one per completed
iteration. -/

inductive StopReason where
  | endMarker
  | stall
  | cap
  deriving DecidableEq

structure LoopState where
  scrollAttempts : Nat
  noNewResultsCount : Nat
  previousCardCount : Nat
  deriving DecidableEq

/-- One iteration of the while-loop body; `none` means "keep looping". -/
def loopIter (endAt : Nat → Bool) (cards : Nat → Nat) (iter : Nat)
    (s : LoopState) : LoopState × Option StopReason :=
  if endAt iter then (s, some StopReason.endMarker)
  else
    let total := cards iter
    let newCount := total - s.previousCardCount
    if newCount = 0 then
      let n := s.noNewResultsCount + 1
      if NO_NEW_RESULTS_THRESHOLD ≤ n then
        ({ s with noNewResultsCount := n, previousCardCount := total },
         some StopReason.stall)
      else
        ({ scrollAttempts := s.scrollAttempts + 1, noNewResultsCount := n,
           previousCardCount := total }, none)
    else
      ({ scrollAttempts := s.scrollAttempts + 1, noNewResultsCount := 0,
         previousCardCount := total }, none)

def loopAux (endAt : Nat → Bool) (cards : Nat → Nat) :
    Nat → Nat → LoopState → LoopState × StopReason
  | 0, _, s => (s, StopReason.cap)
  | fuel + 1, iter, s =>
    match loopIter endAt cards iter s with
    | (s', some r) => (s', r)
    | (s', none) => loopAux endAt cards fuel (iter + 1) s'

/-- The whole `while (scrollAttempts < MAX_SCROLL_ATTEMPTS)` loop from its
initial counters (src/main.js 302-305, 309). -/
def runHarvestLoop (endAt : Nat → Bool) (cards : Nat → Nat) : LoopState × StopReason :=
  loopAux endAt cards MAX_SCROLL_ATTEMPTS 0
    { scrollAttempts := 0, noNewResultsCount := 0, previousCardCount := 0 }

theorem loopAux_succ (endAt : Nat → Bool) (cards : Nat → Nat)
    (fuel iter : Nat) (s : LoopState) :
    loopAux endAt cards (fuel + 1) iter s =
      match loopIter endAt cards iter s with
      | (s', some r) => (s', r)
      | (s', none) => loopAux endAt cards fuel (iter + 1) s' := rfl

theorem loopAux_stall (endAt : Nat → Bool) (cards : Nat → Nat) :
    ∀ (fuel iter : Nat) (s : LoopState),
      (∀ j, iter ≤ j → endAt j = false) →
      (∀ j, iter ≤ j → cards j ≤ s.previousCardCount) →
      (∀ j k, iter ≤ j → j ≤ k → cards k ≤ cards j) →
      s.noNewResultsCount < NO_NEW_RESULTS_THRESHOLD →
      NO_NEW_RESULTS_THRESHOLD - s.noNewResultsCount ≤ fuel →
      (loopAux endAt cards fuel iter s).2 = StopReason.stall ∧
      (loopAux endAt cards fuel iter s).1.scrollAttempts =
        s.scrollAttempts + (NO_NEW_RESULTS_THRESHOLD - 1 - s.noNewResultsCount) := by
  intro fuel
  induction fuel with
  | zero =>
    intro iter s _ _ _ hlt hfuel
    exact absurd hfuel (by unfold NO_NEW_RESULTS_THRESHOLD at hlt ⊢; omega)
  | succ fuel ih =>
    intro iter s hend hle hmono hlt hfuel
    rw [loopAux_succ]
    have hz : cards iter - s.previousCardCount = 0 :=
      Nat.sub_eq_zero_of_le (hle iter (Nat.le_refl iter))
    have hiter : loopIter endAt cards iter s =
        (if NO_NEW_RESULTS_THRESHOLD ≤ s.noNewResultsCount + 1 then
          ({ scrollAttempts := s.scrollAttempts,
             noNewResultsCount := s.noNewResultsCount + 1,
             previousCardCount := cards iter }, some StopReason.stall)
        else
          ({ scrollAttempts := s.scrollAttempts + 1,
             noNewResultsCount := s.noNewResultsCount + 1,
             previousCardCount := cards iter }, none)) := by
      unfold loopIter
      rw [if_neg (by rw [hend iter (Nat.le_refl iter)]; exact Bool.false_ne_true)]
      simp [hz]
    by_cases hth : NO_NEW_RESULTS_THRESHOLD ≤ s.noNewResultsCount + 1
    · rw [hiter, if_pos hth]
      refine ⟨rfl, ?_⟩
      show s.scrollAttempts =
        s.scrollAttempts + (NO_NEW_RESULTS_THRESHOLD - 1 - s.noNewResultsCount)
      unfold NO_NEW_RESULTS_THRESHOLD at hlt hth ⊢
      omega
    · rw [hiter, if_neg hth]
      have hres := ih (iter + 1)
        { scrollAttempts := s.scrollAttempts + 1,
          noNewResultsCount := s.noNewResultsCount + 1,
          previousCardCount := cards iter }
        (fun j hj => hend j (Nat.le_of_succ_le hj))
        (fun j hj => hmono iter j (Nat.le_refl iter) (Nat.le_of_succ_le hj))
        (fun j k hj hjk => hmono j k (Nat.le_of_succ_le hj) hjk)
        (by show s.noNewResultsCount + 1 < NO_NEW_RESULTS_THRESHOLD
            unfold NO_NEW_RESULTS_THRESHOLD at hth ⊢
            omega)
        (by show NO_NEW_RESULTS_THRESHOLD - (s.noNewResultsCount + 1) ≤ fuel
            unfold NO_NEW_RESULTS_THRESHOLD at hfuel ⊢
            omega)
      refine ⟨hres.1, ?_⟩
      rw [hres.2]
      show s.scrollAttempts + 1 +
          (NO_NEW_RESULTS_THRESHOLD - 1 - (s.noNewResultsCount + 1)) =
        s.scrollAttempts + (NO_NEW_RESULTS_THRESHOLD - 1 - s.noNewResultsCount)
      unfold NO_NEW_RESULTS_THRESHOLD at hth ⊢
      omega

theorem loopAux_cap (endAt : Nat → Bool) (cards : Nat → Nat) :
    ∀ (fuel iter : Nat) (s : LoopState),
      (∀ j, iter ≤ j → endAt j = false) →
      (∀ j k, iter ≤ j → j < k → cards j < cards k) →
      s.previousCardCount < cards iter →
      (loopAux endAt cards fuel iter s).2 = StopReason.cap ∧
      (loopAux endAt cards fuel iter s).1.scrollAttempts = s.scrollAttempts + fuel := by
  intro fuel
  induction fuel with
  | zero => intro iter s _ _ _; exact ⟨rfl, rfl⟩
  | succ fuel ih =>
    intro iter s hend hgrow hprev
    rw [loopAux_succ]
    have hnz : cards iter - s.previousCardCount ≠ 0 := by omega
    have hiter : loopIter endAt cards iter s =
        ({ scrollAttempts := s.scrollAttempts + 1, noNewResultsCount := 0,
           previousCardCount := cards iter }, none) := by
      unfold loopIter
      rw [if_neg (by rw [hend iter (Nat.le_refl iter)]; exact Bool.false_ne_true)]
      simp [hnz]
    rw [hiter]
    have hres := ih (iter + 1)
      { scrollAttempts := s.scrollAttempts + 1, noNewResultsCount := 0,
        previousCardCount := cards iter }
      (fun j hj => hend j (Nat.le_of_succ_le hj))
      (fun j k hj hjk => hgrow j k (Nat.le_of_succ_le hj) hjk)
      (hgrow iter (iter + 1) (Nat.le_refl iter) (Nat.lt_succ_self iter))
    refine ⟨hres.1, ?_⟩
    rw [hres.2]
    show s.scrollAttempts + 1 + fuel = s.scrollAttempts + (fuel + 1)
    omega

/-- C5: against a feed that never signals an end marker and never grows (so
every iteration after the first discovers zero previously-unseen items), five
consecutive stalled iterations drive the loop to DRAINED (`stall`) well
before the 100-iteration hard cap; and any iteration that does discover new
items resets the stall counter to zero. -/
theorem stall_threshold_terminates (cards : Nat → Nat)
    (hmono : ∀ j k : Nat, j ≤ k → cards k ≤ cards j) :
    (runHarvestLoop (fun _ => false) cards).2 = StopReason.stall ∧
    (runHarvestLoop (fun _ => false) cards).1.scrollAttempts ≤ NO_NEW_RESULTS_THRESHOLD ∧
    (runHarvestLoop (fun _ => false) cards).1.scrollAttempts < MAX_SCROLL_ATTEMPTS ∧
    (∀ (endAt2 : Nat → Bool) (cards2 : Nat → Nat) (iter : Nat) (s : LoopState),
      endAt2 iter = false → s.previousCardCount < cards2 iter →
      loopIter endAt2 cards2 iter s =
        ({ scrollAttempts := s.scrollAttempts + 1, noNewResultsCount := 0,
           previousCardCount := cards2 iter }, none)) := by
  have hreset : ∀ (endAt2 : Nat → Bool) (cards2 : Nat → Nat) (iter : Nat) (s : LoopState),
      endAt2 iter = false → s.previousCardCount < cards2 iter →
      loopIter endAt2 cards2 iter s =
        ({ scrollAttempts := s.scrollAttempts + 1, noNewResultsCount := 0,
           previousCardCount := cards2 iter }, none) := by
    intro endAt2 cards2 iter s he hp
    unfold loopIter
    rw [if_neg (by rw [he]; exact Bool.false_ne_true)]
    have hnz : cards2 iter - s.previousCardCount ≠ 0 := by omega
    simp [hnz]
  by_cases h0 : cards 0 = 0
  · have hres := loopAux_stall (fun _ => false) cards MAX_SCROLL_ATTEMPTS 0
      { scrollAttempts := 0, noNewResultsCount := 0, previousCardCount := 0 }
      (fun _ _ => rfl)
      (by intro j _
          show cards j ≤ 0
          have := hmono 0 j (Nat.zero_le j)
          omega)
      (fun j k _ hjk => hmono j k hjk)
      (by show (0 : Nat) < NO_NEW_RESULTS_THRESHOLD; decide)
      (by show NO_NEW_RESULTS_THRESHOLD - 0 ≤ MAX_SCROLL_ATTEMPTS; decide)
    refine ⟨hres.1, ?_, ?_, hreset⟩
    · show (loopAux (fun _ => false) cards MAX_SCROLL_ATTEMPTS 0
        { scrollAttempts := 0, noNewResultsCount := 0,
          previousCardCount := 0 }).1.scrollAttempts ≤ NO_NEW_RESULTS_THRESHOLD
      rw [hres.2]
      decide
    · show (loopAux (fun _ => false) cards MAX_SCROLL_ATTEMPTS 0
        { scrollAttempts := 0, noNewResultsCount := 0,
          previousCardCount := 0 }).1.scrollAttempts < MAX_SCROLL_ATTEMPTS
      rw [hres.2]
      decide
  · have hiter0 : loopIter (fun _ => false) cards 0
        { scrollAttempts := 0, noNewResultsCount := 0, previousCardCount := 0 } =
        ({ scrollAttempts := 1, noNewResultsCount := 0,
           previousCardCount := cards 0 }, none) := by
      have := hreset (fun _ => false) cards 0
        { scrollAttempts := 0, noNewResultsCount := 0, previousCardCount := 0 }
        rfl (by show (0 : Nat) < cards 0; omega)
      exact this
    have hstep : runHarvestLoop (fun _ => false) cards =
        loopAux (fun _ => false) cards 99 1
          { scrollAttempts := 1, noNewResultsCount := 0, previousCardCount := cards 0 } := by
      unfold runHarvestLoop MAX_SCROLL_ATTEMPTS
      rw [show (100 : Nat) = 99 + 1 from rfl, loopAux_succ, hiter0]
    have hres := loopAux_stall (fun _ => false) cards 99 1
      { scrollAttempts := 1, noNewResultsCount := 0, previousCardCount := cards 0 }
      (fun _ _ => rfl)
      (by intro j hj
          show cards j ≤ cards 0
          exact hmono 0 j (Nat.zero_le j))
      (fun j k hj hjk => hmono j k hjk)
      (by show (0 : Nat) < NO_NEW_RESULTS_THRESHOLD; decide)
      (by show NO_NEW_RESULTS_THRESHOLD - 0 ≤ 99; decide)
    rw [hstep]
    refine ⟨hres.1, ?_, ?_, hreset⟩
    · rw [hres.2]
      show 1 + (NO_NEW_RESULTS_THRESHOLD - 1 - 0) ≤ NO_NEW_RESULTS_THRESHOLD
      decide
    · rw [hres.2]
      show 1 + (NO_NEW_RESULTS_THRESHOLD - 1 - 0) < MAX_SCROLL_ATTEMPTS
      decide

/-- Witness for C5: a constant three-card feed (zero new items from the
second iteration on) stalls out long before the cap. -/
theorem stall_threshold_terminates_witness :
    (runHarvestLoop (fun _ => false) (fun _ => 3)).2 = StopReason.stall ∧
    (runHarvestLoop (fun _ => false) (fun _ => 3)).1.scrollAttempts ≤ NO_NEW_RESULTS_THRESHOLD ∧
    (runHarvestLoop (fun _ => false) (fun _ => 3)).1.scrollAttempts < MAX_SCROLL_ATTEMPTS ∧
    (∀ (endAt2 : Nat → Bool) (cards2 : Nat → Nat) (iter : Nat) (s : LoopState),
      endAt2 iter = false → s.previousCardCount < cards2 iter →
      loopIter endAt2 cards2 iter s =
        ({ scrollAttempts := s.scrollAttempts + 1, noNewResultsCount := 0,
           previousCardCount := cards2 iter }, none)) :=
  stall_threshold_terminates (fun _ => 3) (fun _ _ _ => Nat.le_refl 3)

/-- C6: against a feed that always grows, never stalls, and never renders an
end marker, the loop terminates by the hard cap at exactly
`MAX_SCROLL_ATTEMPTS = 100` completed iterations — not earlier, not later. -/
theorem hard_cap_terminates_at_100 (cards : Nat → Nat)
    (hgrow : ∀ j k : Nat, j < k → cards j < cards k) (h0 : 0 < cards 0) :
    (runHarvestLoop (fun _ => false) cards).2 = StopReason.cap ∧
    (runHarvestLoop (fun _ => false) cards).1.scrollAttempts = MAX_SCROLL_ATTEMPTS := by
  have hres := loopAux_cap (fun _ => false) cards MAX_SCROLL_ATTEMPTS 0
    { scrollAttempts := 0, noNewResultsCount := 0, previousCardCount := 0 }
    (fun _ _ => rfl)
    (fun j k _ hjk => hgrow j k hjk)
    (by show (0 : Nat) < cards 0; exact h0)
  refine ⟨hres.1, ?_⟩
  show (loopAux (fun _ => false) cards MAX_SCROLL_ATTEMPTS 0
    { scrollAttempts := 0, noNewResultsCount := 0,
      previousCardCount := 0 }).1.scrollAttempts = MAX_SCROLL_ATTEMPTS
  rw [hres.2]
  show (0 : Nat) + MAX_SCROLL_ATTEMPTS = MAX_SCROLL_ATTEMPTS
  exact Nat.zero_add _

/-- Witness for C6: the strictly growing feed `cards i = i + 1` hits the cap
at exactly 100 iterations. -/
theorem hard_cap_terminates_at_100_witness :
    (runHarvestLoop (fun _ => false) (fun i => i + 1)).2 = StopReason.cap ∧
    (runHarvestLoop (fun _ => false) (fun i => i + 1)).1.scrollAttempts = MAX_SCROLL_ATTEMPTS :=
  hard_cap_terminates_at_100 (fun i => i + 1) (fun j k h => by show j + 1 < k + 1; omega) (by decide)

/-! ## Enricher: `extractEmailFromWebsite` (src/main.js 483-525, fetch variant)

`EMAIL_REGEX = /[A-Z0-9._%+-]+@[A-Z0-9.-]+\.[A-Z]{2,}/gi`.  The platform's
regex engine is embedded as an explicit scanner with JS semantics for this
pattern: start positions are scanned left to right (leftmost match wins),
atoms are greedy, matching resumes after each match (`g` flag), and letter
classes are closed under case (`i` flag).  Since `@` is not in the local-part
class, the greedy local part never usefully backtracks; since `.` is in the
domain class, the domain part backtracks by trying the latest dot (followed
by at least two letters) first — realized below by preferring the longest
domain prefix. -/

def isAsciiLetter (c : Char) : Bool :=
  decide (('A' ≤ c ∧ c ≤ 'Z') ∨ ('a' ≤ c ∧ c ≤ 'z'))

def isAsciiDigit (c : Char) : Bool := decide ('0' ≤ c ∧ c ≤ '9')

/-- Class `[A-Z0-9._%+-]` under the `i` flag. -/
def isLocalChar (c : Char) : Bool :=
  isAsciiLetter c || isAsciiDigit c ||
    decide (c = '.') || decide (c = '_') || decide (c = '%') ||
    decide (c = '+') || decide (c = '-')

/-- Class `[A-Z0-9.-]` under the `i` flag. -/
def isDomainChar (c : Char) : Bool :=
  isAsciiLetter c || isAsciiDigit c || decide (c = '.') || decide (c = '-')

/-- Split a maximal domain-character run at the latest dot that is followed
by at least two letters: returns `(before-dot, tld, leftover)` so that the
run is `before-dot ++ '.' :: tld ++ leftover` with `tld` the maximal letter
run after that dot. -/
def domSplit : List Char → Option (List Char × List Char × List Char)
  | [] => none
  | c :: rest =>
    match domSplit rest with
    | some (b, t, rem) => some (c :: b, t, rem)
    | none =>
      if c = '.' then
        let t := rest.takeWhile isAsciiLetter
        if 2 ≤ t.length then some ([], t, rest.dropWhile isAsciiLetter) else none
      else none

/-- Try to match the email pattern at the head of the suffix; on success
return the matched characters and the remaining suffix after the match. -/
def tryEmailAt (l : List Char) : Option (List Char × List Char) :=
  let localRun := l.takeWhile isLocalChar
  let r1 := l.dropWhile isLocalChar
  if localRun.isEmpty then none
  else
    match r1 with
    | '@' :: afterAt =>
      let domRun := afterAt.takeWhile isDomainChar
      let r2 := afterAt.dropWhile isDomainChar
      match domSplit domRun with
      | some (b, t, rem) =>
        if b.isEmpty then none
        else some (localRun ++ '@' :: b ++ '.' :: t, rem ++ r2)
      | none => none
    | _ => none

/-- Global scan (`g` flag): try each start position left to right, resume
after every match.  Each step consumes at least one character, so fuel equal
to the list length suffices. -/
def scanEmailsAux : Nat → List Char → List (List Char)
  | 0, _ => []
  | _ + 1, [] => []
  | fuel + 1, c :: rest =>
    match tryEmailAt (c :: rest) with
    | some (m, after) => m :: scanEmailsAux fuel after
    | none => scanEmailsAux fuel rest

/-- JS `content.match(EMAIL_REGEX)` with the `gi` flags, as a list of matches. -/
def matchAllEmails (s : String) : List String :=
  (scanEmailsAux s.data.length s.data).map fun l => ⟨l⟩

/-- JS `String.prototype.includes` on character lists. -/
def containsSubList (needle : List Char) : List Char → Bool
  | [] => needle.isEmpty
  | c :: rest => needle.isPrefixOf (c :: rest) || containsSubList needle rest

def containsSub (s sub : String) : Bool := containsSubList sub.data s.data

/-- The denylist filter of src/main.js 503-511: static-asset suffixes and
placeholder/monitoring domains. -/
def emailAllowed (e : String) : Bool :=
  !containsSub e ".png" && !containsSub e ".jpg" && !containsSub e ".jpeg" &&
  !containsSub e ".gif" && !containsSub e "example.com" && !containsSub e "sentry.io"

/-- JS `[...new Set(emails)]`: first-occurrence dedup, order preserved. -/
def dedupFirstAux (seen : List String) : List String → List String
  | [] => []
  | a :: l =>
    if seen.contains a then dedupFirstAux seen l
    else a :: dedupFirstAux (a :: seen) l

/-- Outcome of the `fetch` call: a thrown error (network failure, abort
timeout), a non-OK response status, or the retrieved page text. -/
inductive FetchOutcome where
  | failure
  | httpError (status : Nat)
  | success (body : String)
  deriving DecidableEq

/-- Function `extractEmailFromWebsite` (src/main.js 483-525): `null` on any failure or
when nothing survives; otherwise the first surviving deduplicated match. -/
def extractEmailFromWebsite : FetchOutcome → Option String
  | FetchOutcome.failure => none
  | FetchOutcome.httpError _ => none
  | FetchOutcome.success body =>
    let emails := matchAllEmails body
    let validEmails := (dedupFirstAux [] emails).filter emailAllowed
    validEmails.head?

theorem dedupFirstAux_cons_mem {seen : List String} {a : String}
    (h : seen.contains a = true) (l : List String) :
    dedupFirstAux seen (a :: l) = dedupFirstAux seen l := by
  conv_lhs => unfold dedupFirstAux
  rw [if_pos h]

theorem dedupFirstAux_cons_new {seen : List String} {a : String}
    (h : seen.contains a = false) (l : List String) :
    dedupFirstAux seen (a :: l) = a :: dedupFirstAux (a :: seen) l := by
  conv_lhs => unfold dedupFirstAux
  rw [if_neg (fun hh => Bool.false_ne_true (h ▸ hh))]

theorem dedupFirst_filter_head (p : String → Bool) :
    ∀ (l seen : List String),
      ((dedupFirstAux seen l).filter p).head? =
        l.find? fun a => p a && !seen.contains a := by
  intro l
  induction l with
  | nil => intro seen; rfl
  | cons a l ih =>
    intro seen
    by_cases hs : seen.contains a = true
    · rw [dedupFirstAux_cons_mem hs l, ih seen]
      rw [List.find?_cons_of_neg _ (by rw [hs]; simp)]
    · have hs' : seen.contains a = false := by
        cases hc : seen.contains a
        · rfl
        · exact absurd hc hs
      rw [dedupFirstAux_cons_new hs' l]
      by_cases hp : p a = true
      · rw [List.filter_cons_of_pos hp]
        rw [List.find?_cons_of_pos _ (by rw [hp, hs']; rfl)]
        rfl
      · have hp' : p a = false := by
          cases hc : p a
          · rfl
          · exact absurd hc hp
        rw [List.filter_cons_of_neg (by rw [hp']; simp), ih (a :: seen)]
        rw [List.find?_cons_of_neg _ (by rw [hp']; simp)]
        have hq : (fun x => p x && !(a :: seen).contains x) =
            (fun x => p x && !seen.contains x) := by
          funext x
          rw [List.contains_cons]
          by_cases hx : (x == a) = true
          · have hxa : x = a := beq_iff_eq.mp hx
            subst hxa
            rw [hp']
            simp
          · have hx' : (x == a) = false := by
              cases hc : x == a
              · rfl
              · exact absurd hc hx
            rw [hx', Bool.false_or]
        rw [hq]

/-- C8: the enricher never propagates a failure — a thrown fetch error or a
non-OK HTTP status yields no email — and on a successful fetch it returns
exactly the first email-shaped match of the page text (case-insensitive
global scan) that survives the static-asset / placeholder-domain denylist,
or no email when none survives. -/
theorem enricher_contract :
    extractEmailFromWebsite FetchOutcome.failure = none ∧
    (∀ status : Nat, extractEmailFromWebsite (FetchOutcome.httpError status) = none) ∧
    ∀ body : String, extractEmailFromWebsite (FetchOutcome.success body) =
      (matchAllEmails body).find? emailAllowed := by
  refine ⟨rfl, fun _ => rfl, ?_⟩
  intro body
  show ((dedupFirstAux [] (matchAllEmails body)).filter emailAllowed).head? = _
  rw [dedupFirst_filter_head]
  have hq : (fun a => emailAllowed a && !([] : List String).contains a) = emailAllowed := by
    funext a
    simp
  rw [hq]

/-- The scanner on a concrete page text: greedy local parts, domain
backtracking to the latest viable dot, `g`-flag resumption. -/
theorem matchAllEmails_example :
    matchAllEmails "Contact: John.Doe+1@mail.co.uk or img@x.png!" =
      ["John.Doe+1@mail.co.uk", "img@x.png"] := by decide

/-- The denylist in action: the first match is an asset name and is skipped,
the second survives. -/
theorem extractEmail_denylist_example :
    extractEmailFromWebsite (FetchOutcome.success "icon@img.png mail: bob@shop.com") =
      some "bob@shop.com" := by decide
